import Mathlib

/-!
Shallow embedding of the `schmerkle-rust` repository (src/src/hash.rs,
src/src/node.rs, src/src/tree.rs, src/src/lib.rs) and proofs about the
claims of its natural-language specification.

Modelling conventions:

* The hash capability (`BuildMerkleHasher` / `MerkleHasher`, hash.rs) is
  generic in the source; the tree must behave correctly for every
  implementation of the trait.  We instantiate it with the *free* (or
  transcript) hasher: a hasher whose state is the list of chunks fed to it,
  and whose `finish_full` digest is an injective encoding of that state.
  This is a legitimate implementation of the trait, so any property the
  source claims for all capabilities can be refuted on it.  The only chunks
  the program ever feeds are serialized values (`value.hash(state)` through
  the `Hash` impls of node.rs) and previously produced digests
  (`hasher.write(digest)` in the verification protocol of lib.rs's
  `test_value_proof`), hence the two constructors below.
* `V` is the leaf value type (`V: Hash + Clone` in the source); the value
  contract (spec §6) only demands that equal values feed equal bytes, which
  the free model gives by construction.
-/

/-- A digest of the free (transcript) hasher.
`hv vs` is `finish_full` after feeding the serializations of the values
`vs` in order; `hp d₁ d₂` is `finish_full` after writing the bytes of the
two digests `d₁` and `d₂` in order. -/
inductive Digest (V : Type) where
  | hv : List V → Digest V
  | hp : Digest V → Digest V → Digest V
  deriving DecidableEq, Repr

/-- `Node<V, S>` of node.rs: a `Leaf` wrapping one value or a `Branch`
wrapping up to two children (`left: Option<Child>`, `right: Option<Child>`).
The `hash: Option<HashValue>` cache of the Rust structs is not carried
here: the fields are private and both constructors (`Leaf::new`,
`Branch::new`) fill the cache before returning (this is proved in the
`LeafRaw`/`BranchRaw` layer below), so the cache is the pure function
`Node.hash_value` of the structure. -/
inductive Node (V : Type) where
  | leaf : V → Node V
  | branch : Option (Node V) → Option (Node V) → Node V
  deriving Repr

namespace Node

/-- The feed of the `Hash` impls of node.rs (lines 104-115, 147-155,
221-243): a `Leaf` feeds its value (`self.value.hash(state)`); a `Branch`
feeds its children's `Hash` impls recursively - the left then the right
when both are present, and the lone child **twice** when only one is
present.  Note that this feeds the child's recursive value feed, not the
child's cached digest. -/
def feed {V : Type} : Node V → List V
  | .leaf v => [v]
  | .branch (some l) (some r) => feed l ++ feed r
  | .branch (some l) none => feed l ++ feed l
  | .branch none (some r) => feed r ++ feed r
  | .branch none none => []

/-- `Node::hash_value` (node.rs 61-66): the digest cached at construction,
i.e. `finish_full` of the hasher fed by the node's `Hash` impl. -/
def hash_value {V : Type} (n : Node V) : Digest V :=
  Digest.hv n.feed

/-- `Node::len` / `Branch::len` (node.rs 68-73, 187-194). -/
def len {V : Type} : Node V → Nat
  | .leaf _ => 1
  | .branch (some l) (some r) => len l + len r
  | .branch (some l) none => len l
  | .branch none (some r) => len r
  | .branch none none => 0

/-- `bigger` (node.rs 245-251). -/
def bigger (first second : Nat) : Nat :=
  if first ≥ second then first else second

/-- `Node::height` / `Branch::height` (node.rs 75-80, 196-203). -/
def height {V : Type} : Node V → Nat
  | .leaf _ => 0
  | .branch (some l) (some r) => bigger (height l) (height r) + 1
  | .branch (some l) none => height l + 1
  | .branch none (some r) => height r + 1
  | .branch none none => 0

/-- `Node::is_final` / `Branch::is_final` (node.rs 82-87, 205-210): true
for a `Leaf`; for a `Branch`, true exactly when both children are present
and both are final.  (No height comparison is performed.) -/
def is_final {V : Type} : Node V → Bool
  | .leaf _ => true
  | .branch (some l) (some r) => is_final l && is_final r
  | .branch _ _ => false

/-- `Node::left` (node.rs 89-94). -/
def left {V : Type} : Node V → Option (Node V)
  | .branch l _ => l
  | _ => none

/-- `Node::right` (node.rs 96-101). -/
def right {V : Type} : Node V → Option (Node V)
  | .branch _ r => r
  | _ => none

/-- The in-order sequence of leaf values under a node (proof-side helper;
unlike `feed` it does not duplicate single-child subtrees). -/
def leaves {V : Type} : Node V → List V
  | .leaf v => [v]
  | .branch (some l) (some r) => leaves l ++ leaves r
  | .branch (some l) none => leaves l
  | .branch none (some r) => leaves r
  | .branch none none => []

end Node

/-- `Node::new_leaf` (node.rs 57-59): wraps `Leaf::new`, which computes
`digest = H(serialize(value))` at construction. -/
def new_leaf {V : Type} (v : V) : Node V :=
  Node.leaf v

/-- `Node::new_branch` (node.rs 49-55): wraps `Branch::new`, which computes
the digest at construction from the branch's `Hash` impl. -/
def new_branch {V : Type} (l r : Option (Node V)) : Node V :=
  Node.branch l r

/-- The feed of `Branch`'s `Hash` impl (node.rs 221-243), factored out of
`Node.feed` so that it can be referred to for a pair of optional children. -/
def branchFeed {V : Type} (l r : Option (Node V)) : List V :=
  match l, r with
  | some l, some r => l.feed ++ r.feed
  | some l, none => l.feed ++ l.feed
  | none, some r => r.feed ++ r.feed
  | none, none => []

/-- `Proof` (tree.rs 9-12): a tagged sibling digest. -/
inductive Proof (V : Type) where
  | left : Digest V → Proof V
  | right : Digest V → Proof V
  deriving DecidableEq, Repr

/-- `MerkleTree<V, S>` (tree.rs 15-23).  The `hasher_builder` field is the
capability object; in this embedding the capability is fixed to the free
hasher, so the field carries no information and is dropped. -/
structure MerkleTree (V : Type) where
  nodes : List (Node V)
  root : Option (Node V)
  deriving Repr

namespace MerkleTree

/-- `MerkleTree::with_hasher` (tree.rs 30-36). -/
def with_hasher {V : Type} : MerkleTree V :=
  { nodes := [], root := none }

/-- `MerkleTree::nodes_leaf_count` (tree.rs 193-196). -/
def nodes_leaf_count {V : Type} (ns : List (Node V)) : Nat :=
  ns.foldl (fun acc child => acc + child.len) 0

/-- Fuel-based search for the least `t ≥ start` with `n ≤ 2 ^ t`. -/
def clog2_go (n : Nat) : Nat → Nat → Nat
  | 0, t => t
  | fuel + 1, t => if n ≤ 2 ^ t then t else clog2_go n fuel (t + 1)

/-- Model of `f64::log2(n as f64).ceil() as usize` (tree.rs 159): the least
`t` with `n ≤ 2 ^ t`, i.e. `⌈log₂ n⌉` (and `0` for `n = 0`, matching the
saturating cast of `-inf`).  Proved equal to `Nat.clog 2` below. -/
def ceil_log2 (n : Nat) : Nat :=
  clog2_go n n 0

/-- `MerkleTree::build_tree` (tree.rs 169-178), with the `VecDeque` of
pending nodes passed explicitly: returns the built subtree (or `none` when
the queue is exhausted, via the `?` on `front()`) together with the
remaining queue.  When the front node's height is not `height` and
`height = 0`, the source computes `0usize - 1` and aborts (debug overflow
panic); that state is unreachable through the public API (see
`buildTree_spec`), and the model returns the queue unchanged there. -/
def buildTree {V : Type} (height : Nat) (nodes : List (Node V)) :
    Option (Node V) × List (Node V) :=
  match nodes with
  | [] => (none, nodes)
  | n :: rest =>
    if n.height = height then (some n, rest)
    else
      match height with
      | 0 => (none, nodes)
      | h + 1 =>
        let pl := buildTree h nodes
        let pr := buildTree h pl.2
        (some (new_branch pl.1 pr.1), pr.2)

/-- `MerkleTree::recycle` (tree.rs 180-191): push a final subtree whole;
otherwise descend into whichever children are present, left first.  The
result is the refilled pending queue, in push order. -/
def recycle {V : Type} : Node V → List (Node V)
  | n@(Node.leaf _) => if n.is_final then [n] else []
  | n@(Node.branch l r) =>
    if n.is_final then [n]
    else
      (match l with
       | some c => recycle c
       | none => []) ++
      (match r with
       | some c => recycle c
       | none => [])

/-- The rebuild arm of `MerkleTree::rebuild_tree` (tree.rs 158-164): build
a new root at height `⌈log₂(total pending leaves)⌉`, clear the queue
(dropping whatever `build_tree` did not consume), recycle the new root into
it, and install the root. -/
def rebuildGo {V : Type} (t : MerkleTree V) : MerkleTree V :=
  let p := buildTree (ceil_log2 (nodes_leaf_count t.nodes)) t.nodes
  { nodes :=
      match p.1 with
      | some r => recycle r
      | none => []
    root := p.1 }

/-- `MerkleTree::rebuild_tree` (tree.rs 153-167): if the queue is empty,
drop the root; if a root exists whose leaf count already covers every
pending leaf, do nothing; otherwise rebuild. -/
def rebuild_tree {V : Type} (t : MerkleTree V) : MerkleTree V :=
  if t.nodes.isEmpty then { t with root := none }
  else
    match t.root with
    | some node =>
      if node.len ≥ nodes_leaf_count t.nodes then t else rebuildGo t
    | none => rebuildGo t

/-- `MerkleTree::insert` (tree.rs 38-41). -/
def insert {V : Type} (t : MerkleTree V) (value : V) : MerkleTree V :=
  rebuild_tree { t with nodes := t.nodes ++ [new_leaf value] }

/-- `MerkleTree::insert_items` (tree.rs 43-52). -/
def insert_items {V : Type} (t : MerkleTree V) (items : List V) : MerkleTree V :=
  rebuild_tree { t with nodes := t.nodes ++ items.map new_leaf }

/-- `MerkleTree::root_hash` (tree.rs 54-61). -/
def root_hash {V : Type} (t : MerkleTree V) : Option (Digest V) :=
  t.root.map Node.hash_value

/-- `MerkleTree::height` (tree.rs 85-91). -/
def height {V : Type} (t : MerkleTree V) : Nat :=
  match t.root with
  | some root => root.height
  | none => 0

/-- `MerkleTree::leaf_count` (tree.rs 93-99). -/
def leaf_count {V : Type} (t : MerkleTree V) : Option Nat :=
  t.root.map Node.len

/-- `MerkleTree::data_proof` (tree.rs 101-151).  At a node whose height is
`height + 1` the children's digests are compared with the target and a
single tagged sibling step is emitted; otherwise the present children are
searched (left before right) and the results concatenated.  `root.left()`
and `root.right()` both return `None` on a `Leaf` (node.rs 89-101), so a
`Leaf` falls into the final `_ => vec![]` arm of either match. -/
def data_proof {V : Type} [DecidableEq V] (hash : Digest V) (height : Nat) :
    Node V → List (Proof V)
  | Node.leaf _ => []
  | Node.branch l r =>
    let root_height := (Node.branch l r).height
    if height + 1 = root_height then
      match l, r with
      | some lc, some rc =>
        if lc.hash_value = hash then [Proof.right rc.hash_value]
        else if rc.hash_value = hash then [Proof.left lc.hash_value]
        else []
      | some lc, none =>
        if lc.hash_value = hash then [Proof.right lc.hash_value] else []
      | none, some rc =>
        if rc.hash_value = hash then [Proof.left rc.hash_value] else []
      | none, none => []
    else
      match l, r with
      | some lc, some rc => data_proof hash height lc ++ data_proof hash height rc
      | some lc, none => data_proof hash height lc
      | none, some rc => data_proof hash height rc
      | none, none => []

/-- `MerkleTree::value_proof` (tree.rs 63-71): the search target is
`finish_full` after feeding the value, i.e. the would-be leaf digest. -/
def value_proof {V : Type} [DecidableEq V] (t : MerkleTree V) (value : V) :
    List (Proof V) :=
  match t.root with
  | some root => data_proof (Digest.hv [value]) 0 root
  | none => []

/-- `MerkleTree::tree_proof` (tree.rs 73-83): the search target is the
other tree's root digest. -/
def tree_proof {V : Type} [DecidableEq V] (t other : MerkleTree V) :
    List (Proof V) :=
  match other.root_hash with
  | some h =>
    match t.root with
    | some root => data_proof h 0 root
    | none => []
  | none => []

end MerkleTree

/-- The verification protocol of spec §4.4, as implemented by the fold of
`test_value_proof` in src/src/lib.rs (lines 126-173): starting from the
claimed leaf digest, a `Left(sib)` step writes `sib` then the current
digest, a `Right(sib)` step writes the current digest then `sib`. -/
def verify_fold {V : Type} (steps : List (Proof V)) (start : Digest V) : Digest V :=
  steps.foldl
    (fun current step =>
      match step with
      | Proof.left sib => Digest.hp sib current
      | Proof.right sib => Digest.hp current sib)
    start

/-- One public mutating call of the tree API (spec §6). -/
inductive Op (V : Type) where
  | ins : V → Op V
  | insItems : List V → Op V

/-- Apply one public call. -/
def applyOp {V : Type} (t : MerkleTree V) : Op V → MerkleTree V
  | Op.ins v => t.insert v
  | Op.insItems vs => t.insert_items vs

/-- Run a sequence of public calls against a tree created by
`with_hasher`: exactly the trees reachable through the public API. -/
def runOps {V : Type} (ops : List (Op V)) : MerkleTree V :=
  ops.foldl applyOp MerkleTree.with_hasher

/-- The full sequence of values inserted by a sequence of calls, in order. -/
def opValues {V : Type} : List (Op V) → List V
  | [] => []
  | Op.ins v :: ops => v :: opValues ops
  | Op.insItems vs :: ops => vs ++ opValues ops

/-- Modelled from the spec: "the subtree is a perfect binary tree"
(§3 `is_saturated`) - both children present, both perfect, equal heights.
Used to compare the spec's characterization with `Node.is_final`. -/
def isPerfect {V : Type} : Node V → Bool
  | Node.leaf _ => true
  | Node.branch (some l) (some r) =>
    isPerfect l && isPerfect r && (l.height == r.height)
  | Node.branch _ _ => false

/-- Modelled from the spec: saturation as §3 states it minus the height
condition - true for a Leaf; for a Branch, both children present and both
saturated. -/
inductive Saturated {V : Type} : Node V → Prop where
  | leaf (v : V) : Saturated (Node.leaf v)
  | branch {l r : Node V} : Saturated l → Saturated r →
      Saturated (Node.branch (some l) (some r))

/-- The canonical tree shape `build_tree` produces at height `h` over the
leaf sequence `M` (proof-side function of the pair `(h, M)` alone; the
rebuild invariant below shows every API-built root has this shape). -/
def canonTree {V : Type} [Inhabited V] : Nat → List V → Node V
  | 0, M => new_leaf (M.headD default)
  | h + 1, M =>
    if M.length ≤ 2 ^ h then new_branch (some (canonTree h M)) none
    else
      new_branch (some (canonTree h (M.take (2 ^ h))))
        (some (canonTree h (M.drop (2 ^ h))))

/-- All digests cached in a tree: the node's own and, recursively, those of
its present children (proof-side helper for the not-found claim). -/
def Node.allDigests {V : Type} : Node V → List (Digest V)
  | Node.leaf v => [(Node.leaf v).hash_value]
  | Node.branch l r =>
    (Node.branch l r).hash_value ::
      ((match l with
        | some c => c.allDigests
        | none => []) ++
       (match r with
        | some c => c.allDigests
        | none => []))

/-- All digests cached in a tree (empty when the tree is empty);
proof-side helper for the not-found claim. -/
def treeDigests {V : Type} (t : MerkleTree V) : List (Digest V) :=
  match t.root with
  | some r => r.allDigests
  | none => []

/-- Concatenated leaf sequence of a pending queue. -/
def leavesQ {V : Type} (q : List (Node V)) : List V :=
  (q.map Node.leaves).flatten

/-- `Leaf<V, S>` (node.rs 21-30) with its `hash: Option<HashValue>` field
kept, to model the construction-time cache initialization. -/
structure LeafRaw (V : Type) where
  value : V
  hash : Option (Digest V)

/-- `Leaf::new` (node.rs 122-132): the struct is created with `hash: None`,
then a fresh hasher is fed the leaf's `Hash` impl (the value) and
`finish_full` is stored before the leaf is returned. -/
def LeafRaw.new {V : Type} (value : V) : LeafRaw V :=
  let leaf : LeafRaw V := { value := value, hash := none }
  { leaf with hash := some (Digest.hv [leaf.value]) }

/-- `Leaf::hash_value` (node.rs 134-140): returns the cached digest;
`none` models the `panic!("Hash was not set for leaf object")` arm. -/
def LeafRaw.hash_value {V : Type} (l : LeafRaw V) : Option (Digest V) :=
  l.hash

/-- `Branch<V, S>` (node.rs 32-42) with its cache field kept. -/
structure BranchRaw (V : Type) where
  left : Option (Node V)
  right : Option (Node V)
  hash : Option (Digest V)

/-- `Branch::new` (node.rs 162-173): the struct is created with
`hash: None`, then a fresh hasher is fed the branch's `Hash` impl and
`finish_full` is stored before the branch is returned. -/
def BranchRaw.new {V : Type} (left right : Option (Node V)) : BranchRaw V :=
  let branch : BranchRaw V := { left := left, right := right, hash := none }
  { branch with hash := some (Digest.hv (branchFeed branch.left branch.right)) }

/-- `Branch::hash_value` (node.rs 175-181): returns the cached digest;
`none` models the panic arm. -/
def BranchRaw.hash_value {V : Type} (b : BranchRaw V) : Option (Digest V) :=
  b.hash

/-- The reachable-state invariant of `MerkleTree` (proof-side): the pending
queue holds perfect subtrees in non-increasing height order whose
concatenated leaves are the full insertion sequence `L`, and the root is
the canonical tree over `L` (absent when `L` is empty). -/
def TreeInv {V : Type} [Inhabited V] (t : MerkleTree V) (L : List V) : Prop :=
  (∀ n ∈ t.nodes, isPerfect n = true) ∧
  t.nodes.Pairwise (fun a b => b.height ≤ a.height) ∧
  leavesQ t.nodes = L ∧
  t.root = (if L.isEmpty then none
    else some (canonTree (MerkleTree.ceil_log2 L.length) L))

/-! ### Basic lemmas about nodes -/

theorem Node.leaves_length {V : Type} (n : Node V) : n.leaves.length = n.len := by
  induction n using Node.leaves.induct <;> simp [Node.leaves, Node.len, *]

theorem isPerfect_is_final {V : Type} (n : Node V) (h : isPerfect n = true) :
    n.is_final = true := by
  induction n using isPerfect.induct with
  | case1 v => simp [Node.is_final]
  | case2 l r ihl ihr =>
    simp only [isPerfect, Bool.and_eq_true, beq_iff_eq] at h
    simp [Node.is_final, ihl h.1.1, ihr h.1.2]
  | case3 l r h1 => simp [isPerfect] at h

theorem isPerfect_len {V : Type} (n : Node V) (h : isPerfect n = true) :
    n.len = 2 ^ n.height := by
  induction n using isPerfect.induct with
  | case1 v => simp [Node.len, Node.height]
  | case2 l r ihl ihr =>
    simp only [isPerfect, Bool.and_eq_true, beq_iff_eq] at h
    obtain ⟨⟨hl, hr⟩, hh⟩ := h
    simp only [Node.len, Node.height, ihl hl, ihr hr, hh, Node.bigger, ge_iff_le,
      le_refl, if_pos]
    rw [pow_succ, mul_two]
  | case3 l r h1 => simp [isPerfect] at h

/-! ### The ceiling of the base-2 logarithm -/

theorem clog2_go_le {n : Nat} :
    ∀ fuel t f : Nat, t ≤ f → n ≤ 2 ^ f → MerkleTree.clog2_go n fuel t ≤ f := by
  intro fuel
  induction fuel with
  | zero => intro t f htf _; simpa [MerkleTree.clog2_go] using htf
  | succ fuel ih =>
    intro t f htf hnf
    simp only [MerkleTree.clog2_go]
    split
    · exact htf
    · rename_i hlt
      refine ih (t + 1) f ?_ hnf
      have h2 : 2 ^ t < 2 ^ f := lt_of_lt_of_le (Nat.lt_of_not_le hlt) hnf
      have : t < f := (Nat.pow_lt_pow_iff_right (by norm_num)).mp h2
      omega

theorem le_pow_clog2_go {n : Nat} :
    ∀ fuel t : Nat, n ≤ 2 ^ (t + fuel) → n ≤ 2 ^ MerkleTree.clog2_go n fuel t := by
  intro fuel
  induction fuel with
  | zero => intro t h; simpa [MerkleTree.clog2_go] using h
  | succ fuel ih =>
    intro t h
    simp only [MerkleTree.clog2_go]
    split
    · assumption
    · have he : t + 1 + fuel = t + (fuel + 1) := by omega
      exact ih (t + 1) (he ▸ h)

theorem le_two_pow_ceil_log2 (n : Nat) : n ≤ 2 ^ MerkleTree.ceil_log2 n := by
  refine le_pow_clog2_go n 0 ?_
  simpa using Nat.le_of_lt (Nat.lt_two_pow n)

theorem ceil_log2_le {n f : Nat} (h : n ≤ 2 ^ f) : MerkleTree.ceil_log2 n ≤ f :=
  clog2_go_le n 0 f (Nat.zero_le f) h

theorem ceil_log2_eq_clog (n : Nat) : MerkleTree.ceil_log2 n = Nat.clog 2 n := by
  apply Nat.le_antisymm
  · exact ceil_log2_le (Nat.le_pow_clog (by norm_num) n)
  · exact (Nat.le_pow_iff_clog_le (by norm_num)).mp (le_two_pow_ceil_log2 n)

/-! ### The canonical tree shape -/

theorem canon_height {V : Type} [Inhabited V] :
    ∀ (h : Nat) (M : List V), (canonTree h M).height = h := by
  intro h
  induction h with
  | zero => intro M; simp [canonTree, new_leaf, Node.height]
  | succ h ih =>
    intro M
    simp only [canonTree]
    split
    · simp [new_branch, Node.height, ih]
    · simp [new_branch, Node.height, ih, Node.bigger]

theorem canon_len {V : Type} [Inhabited V] :
    ∀ (h : Nat) (M : List V), 1 ≤ M.length → M.length ≤ 2 ^ h →
      (canonTree h M).len = M.length := by
  intro h
  induction h with
  | zero =>
    intro M h1 h2
    simp only [Nat.pow_zero] at h2
    simp only [canonTree, new_leaf, Node.len]
    omega
  | succ h ih =>
    intro M h1 h2
    simp only [canonTree]
    split
    · rename_i hle
      simp [new_branch, Node.len, ih M h1 hle]
    · rename_i hgt
      push_neg at hgt
      have htake : (M.take (2 ^ h)).length = 2 ^ h := by
        simp [List.length_take]; omega
      have hdrop : (M.drop (2 ^ h)).length = M.length - 2 ^ h := by
        simp [List.length_drop]
      have hp : (0 : Nat) < 2 ^ h := Nat.pos_pow_of_pos h (by norm_num)
      have e1 := ih (M.take (2 ^ h)) (by omega) (by omega)
      have e2 := ih (M.drop (2 ^ h)) (by rw [hdrop]; omega)
        (by rw [hdrop]; rw [pow_succ] at h2; omega)
      simp only [new_branch, Node.len, e1, e2, htake, hdrop]
      omega

theorem canon_leaves {V : Type} [Inhabited V] :
    ∀ (h : Nat) (M : List V), 1 ≤ M.length → M.length ≤ 2 ^ h →
      (canonTree h M).leaves = M := by
  intro h
  induction h with
  | zero =>
    intro M h1 h2
    simp only [Nat.pow_zero] at h2
    match M, h1, h2 with
    | [v], _, _ => simp [canonTree, new_leaf, Node.leaves]
  | succ h ih =>
    intro M h1 h2
    simp only [canonTree]
    split
    · rename_i hle
      simp [new_branch, Node.leaves, ih M h1 hle]
    · rename_i hgt
      push_neg at hgt
      have htake : (M.take (2 ^ h)).length = 2 ^ h := by
        simp [List.length_take]; omega
      have hdrop : (M.drop (2 ^ h)).length = M.length - 2 ^ h := by
        simp [List.length_drop]
      have hp : (0 : Nat) < 2 ^ h := Nat.pos_pow_of_pos h (by norm_num)
      have e1 := ih (M.take (2 ^ h)) (by omega) (by omega)
      have e2 := ih (M.drop (2 ^ h)) (by rw [hdrop]; omega)
        (by rw [hdrop]; rw [pow_succ] at h2; omega)
      simp [new_branch, Node.leaves, e1, e2]

theorem canon_perfect {V : Type} [Inhabited V] :
    ∀ (h : Nat) (M : List V), M.length = 2 ^ h → isPerfect (canonTree h M) = true := by
  intro h
  induction h with
  | zero => intro M hM; simp [canonTree, new_leaf, isPerfect]
  | succ h ih =>
    intro M hM
    have hlt : 2 ^ h < M.length := by rw [hM, pow_succ]; have := Nat.pos_pow_of_pos h (show 0 < 2 by norm_num); omega
    simp only [canonTree, if_neg (by omega : ¬ M.length ≤ 2 ^ h)]
    have htake : (M.take (2 ^ h)).length = 2 ^ h := by simp [List.length_take]; omega
    have hdrop : (M.drop (2 ^ h)).length = 2 ^ h := by
      simp [List.length_drop]; rw [hM, pow_succ]; omega
    simp [new_branch, isPerfect, ih _ htake, ih _ hdrop, canon_height]

theorem canon_final_imp {V : Type} [Inhabited V] :
    ∀ (h : Nat) (M : List V), 1 ≤ M.length → M.length ≤ 2 ^ h →
      (canonTree h M).is_final = true → M.length = 2 ^ h := by
  intro h
  induction h with
  | zero => intro M h1 h2 _; simp only [Nat.pow_zero] at h2 ⊢; omega
  | succ h ih =>
    intro M h1 h2 hfin
    by_cases hle : M.length ≤ 2 ^ h
    · rw [canonTree, if_pos hle] at hfin
      simp [new_branch, Node.is_final] at hfin
    · rw [canonTree, if_neg hle] at hfin
      push_neg at hle
      simp only [new_branch, Node.is_final, Bool.and_eq_true] at hfin
      have hdrop : (M.drop (2 ^ h)).length = M.length - 2 ^ h := by
        simp [List.length_drop]
      have := ih (M.drop (2 ^ h)) (by omega)
        (by rw [hdrop]; rw [pow_succ] at h2; omega) hfin.2
      rw [hdrop] at this
      rw [pow_succ]
      omega

theorem perfect_eq_canon {V : Type} [Inhabited V] (n : Node V)
    (h : isPerfect n = true) : n = canonTree n.height n.leaves := by
  induction n using isPerfect.induct with
  | case1 v => simp [canonTree, Node.height, Node.leaves, new_leaf]
  | case2 l r ihl ihr =>
    simp only [isPerfect, Bool.and_eq_true, beq_iff_eq] at h
    obtain ⟨⟨hl, hr⟩, hh⟩ := h
    have hlen : l.leaves.length = 2 ^ l.height := by
      rw [Node.leaves_length, isPerfect_len l hl]
    have hrlen : r.leaves.length = 2 ^ l.height := by
      rw [Node.leaves_length, isPerfect_len r hr, hh]
    have hheight : (Node.branch (some l) (some r)).height = l.height + 1 := by
      simp [Node.height, hh, Node.bigger]
    have hleaves : (Node.branch (some l) (some r)).leaves = l.leaves ++ r.leaves := by
      simp [Node.leaves]
    rw [hheight, hleaves]
    have hp : (0 : Nat) < 2 ^ l.height := Nat.pos_pow_of_pos _ (by norm_num)
    have hbig : ¬ (l.leaves ++ r.leaves).length ≤ 2 ^ l.height := by
      simp only [List.length_append, hlen, hrlen]; omega
    rw [canonTree, if_neg hbig]
    have htake : (l.leaves ++ r.leaves).take (2 ^ l.height) = l.leaves := by
      rw [← hlen]; exact List.take_left l.leaves r.leaves
    have hdrop : (l.leaves ++ r.leaves).drop (2 ^ l.height) = r.leaves := by
      rw [← hlen]; exact List.drop_left l.leaves r.leaves
    rw [htake, hdrop, new_branch]
    rw [← ihl hl]
    have : canonTree (l.height) r.leaves = r := by
      rw [hh]; exact (ihr hr).symm
    rw [this]
  | case3 l r h1 => simp [isPerfect] at h

/-! ### Pending-queue lemmas -/

theorem leavesQ_nil {V : Type} : leavesQ ([] : List (Node V)) = [] := rfl

theorem leavesQ_cons {V : Type} (n : Node V) (q : List (Node V)) :
    leavesQ (n :: q) = n.leaves ++ leavesQ q := by
  simp [leavesQ]

theorem leavesQ_append {V : Type} (q₁ q₂ : List (Node V)) :
    leavesQ (q₁ ++ q₂) = leavesQ q₁ ++ leavesQ q₂ := by
  simp [leavesQ]

theorem foldl_len_eq {V : Type} :
    ∀ (q : List (Node V)) (a : Nat),
      q.foldl (fun acc child => acc + child.len) a = a + (q.map Node.len).sum := by
  intro q
  induction q with
  | nil => intro a; simp
  | cons n q ih => intro a; simp [ih, Nat.add_assoc]

theorem nodes_leaf_count_eq {V : Type} (q : List (Node V)) :
    MerkleTree.nodes_leaf_count q = (leavesQ q).length := by
  rw [MerkleTree.nodes_leaf_count, foldl_len_eq, Nat.zero_add, leavesQ,
    List.length_flatten, List.map_map]
  congr 1
  apply List.map_congr_left
  intro n _
  exact (Node.leaves_length n).symm

theorem mem_len_le {V : Type} {q : List (Node V)} {n : Node V} (h : n ∈ q) :
    n.len ≤ MerkleTree.nodes_leaf_count q := by
  rw [MerkleTree.nodes_leaf_count, foldl_len_eq, Nat.zero_add]
  exact List.single_le_sum (fun _ _ => Nat.zero_le _) _ (List.mem_map_of_mem Node.len h)

theorem perfect_leaves_ne_nil {V : Type} {n : Node V} (h : isPerfect n = true) :
    n.leaves ≠ [] := by
  have h1 : n.leaves.length = 2 ^ n.height := by
    rw [Node.leaves_length, isPerfect_len n h]
  intro hnil
  rw [hnil] at h1
  have := Nat.pos_pow_of_pos n.height (show 0 < 2 by norm_num)
  simp at h1
  omega

theorem leavesQ_ne_nil {V : Type} {q : List (Node V)}
    (hperf : ∀ n ∈ q, isPerfect n = true) (hne : q ≠ []) : leavesQ q ≠ [] := by
  match q, hne with
  | n :: rest, _ =>
    rw [leavesQ_cons]
    have := perfect_leaves_ne_nil (hperf n (List.mem_cons_self n rest))
    intro hc
    rcases List.append_eq_nil.mp hc with ⟨h1, _⟩
    exact this h1

/-! ### Correctness of `build_tree` on valid pending queues -/

theorem buildTree_nil {V : Type} (h : Nat) :
    MerkleTree.buildTree h ([] : List (Node V)) = (none, []) := by
  simp [MerkleTree.buildTree]

theorem buildTree_pop {V : Type} {h : Nat} {n : Node V} {rest : List (Node V)}
    (hh : n.height = h) : MerkleTree.buildTree h (n :: rest) = (some n, rest) := by
  rw [MerkleTree.buildTree.eq_def]
  simp [hh]

theorem buildTree_step {V : Type} {h : Nat} {n : Node V} {rest : List (Node V)}
    (hh : ¬ n.height = h + 1) :
    MerkleTree.buildTree (h + 1) (n :: rest) =
      (some (new_branch (MerkleTree.buildTree h (n :: rest)).1
        (MerkleTree.buildTree h (MerkleTree.buildTree h (n :: rest)).2).1),
       (MerkleTree.buildTree h (MerkleTree.buildTree h (n :: rest)).2).2) := by
  conv_lhs => rw [MerkleTree.buildTree.eq_def]
  simp [hh, new_branch]

theorem buildTree_spec {V : Type} [Inhabited V] :
    ∀ (h : Nat) (q : List (Node V)),
      (∀ n ∈ q, isPerfect n = true) →
      q.Pairwise (fun a b => b.height ≤ a.height) →
      (∀ n ∈ q, n.height ≤ h) →
      q ≠ [] →
      (MerkleTree.buildTree h q).1 = some (canonTree h ((leavesQ q).take (2 ^ h))) ∧
      (MerkleTree.buildTree h q).2 <:+ q ∧
      leavesQ (MerkleTree.buildTree h q).2 = (leavesQ q).drop (2 ^ h) := by
  intro h
  induction h with
  | zero =>
    intro q hperf hpair hle hne
    match q, hne with
    | n :: rest, _ =>
      have h0 : n.height = 0 := Nat.le_zero.mp (hle n (List.mem_cons_self n rest))
      have hp := hperf n (List.mem_cons_self n rest)
      have hlen : n.leaves.length = 1 := by
        rw [Node.leaves_length, isPerfect_len n hp, h0]
        rfl
      rw [buildTree_pop h0]
      refine ⟨?_, List.suffix_cons n rest, ?_⟩
      · have hcn := perfect_eq_canon n hp
        rw [h0] at hcn
        rw [leavesQ_cons, Nat.pow_zero, ← hlen, List.take_left]
        exact congrArg some hcn
      · rw [leavesQ_cons, Nat.pow_zero, ← hlen, List.drop_left]
  | succ h ih =>
    intro q hperf hpair hle hne
    match q, hne with
    | n :: rest, _ =>
      have hpow : (2 : Nat) ^ (h + 1) = 2 ^ h + 2 ^ h := by
        rw [pow_succ]; omega
      by_cases hh : n.height = h + 1
      · -- the front node already has the target height: dequeue and reuse it
        have hp := hperf n (List.mem_cons_self n rest)
        have hlen : n.leaves.length = 2 ^ (h + 1) := by
          rw [Node.leaves_length, isPerfect_len n hp, hh]
        rw [buildTree_pop hh]
        refine ⟨?_, List.suffix_cons n rest, ?_⟩
        · have hcn := perfect_eq_canon n hp
          rw [hh] at hcn
          rw [leavesQ_cons, ← hlen, List.take_left]
          exact congrArg some hcn
        · rw [leavesQ_cons, ← hlen, List.drop_left]
      · -- recursive case: build left and right subtrees at height h
        have hq' : ∀ m ∈ n :: rest, m.height ≤ h := by
          intro m hm
          rcases List.mem_cons.mp hm with hm | hm
          · subst hm
            have := hle m (List.mem_cons_self m rest)
            omega
          · have h1 : m.height ≤ n.height := (List.pairwise_cons.mp hpair).1 m hm
            have h2 := hle n (List.mem_cons_self n rest)
            omega
        obtain ⟨ihl1, ihl2, ihl3⟩ :=
          ih (n :: rest) hperf hpair hq' (List.cons_ne_nil n rest)
        set q1 := (MerkleTree.buildTree h (n :: rest)).2 with hq1
        have hq1perf : ∀ m ∈ q1, isPerfect m = true := fun m hm => hperf m (ihl2.subset hm)
        have hq1pair : q1.Pairwise (fun a b => b.height ≤ a.height) :=
          hpair.sublist ihl2.sublist
        have hq1le : ∀ m ∈ q1, m.height ≤ h := fun m hm => hq' m (ihl2.subset hm)
        rw [buildTree_step hh, ← hq1]
        by_cases hq1nil : q1 = []
        · -- the queue was exhausted by the left subtree: lone-left-child branch
          have hLlen : (leavesQ (n :: rest)).length ≤ 2 ^ h := by
            have hl0 : leavesQ q1 = [] := by rw [hq1nil]; rfl
            rw [ihl3] at hl0
            exact List.drop_eq_nil_iff.mp hl0
          rw [hq1nil, buildTree_nil]
          refine ⟨?_, List.nil_suffix, ?_⟩
          · simp only [ihl1]
            have htk : (leavesQ (n :: rest)).take (2 ^ h) = leavesQ (n :: rest) :=
              List.take_of_length_le hLlen
            have htk2 : (leavesQ (n :: rest)).take (2 ^ (h + 1)) = leavesQ (n :: rest) := by
              refine List.take_of_length_le ?_
              omega
            rw [htk, htk2, canonTree, if_pos hLlen]
          · rw [leavesQ_nil, eq_comm, List.drop_eq_nil_iff]
            omega
        · -- both subtrees present
          obtain ⟨ihr1, ihr2, ihr3⟩ := ih q1 hq1perf hq1pair hq1le hq1nil
          have hq1leaves : leavesQ q1 ≠ [] := leavesQ_ne_nil hq1perf hq1nil
          have hLgt : 2 ^ h < (leavesQ (n :: rest)).length := by
            rw [ihl3] at hq1leaves
            by_contra hcon
            push_neg at hcon
            exact hq1leaves (List.drop_eq_nil_iff.mpr hcon)
          have hp2 : (0 : Nat) < 2 ^ h := Nat.pos_pow_of_pos h (by norm_num)
          refine ⟨?_, ihr2.trans ihl2, ?_⟩
          · simp only [ihl1, ihr1, ihl3]
            have hlen1 : ¬ ((leavesQ (n :: rest)).take (2 ^ (h + 1))).length ≤ 2 ^ h := by
              simp only [List.length_take, hpow]
              omega
            have e1 : ((leavesQ (n :: rest)).take (2 ^ (h + 1))).take (2 ^ h) =
                (leavesQ (n :: rest)).take (2 ^ h) := by
              rw [List.take_take, Nat.min_eq_left (by omega)]
            have e2 : ((leavesQ (n :: rest)).take (2 ^ (h + 1))).drop (2 ^ h) =
                ((leavesQ (n :: rest)).drop (2 ^ h)).take (2 ^ h) := by
              rw [List.drop_take]
              congr 1
              omega
            rw [canonTree, if_neg hlen1, e1, e2]
          · rw [ihr3, ihl3, List.drop_drop]
            congr 1
            simp only [hpow]

/-! ### Correctness of `recycle` on canonical roots -/

theorem recycle_final {V : Type} {n : Node V} (h : n.is_final = true) :
    MerkleTree.recycle n = [n] := by
  rw [MerkleTree.recycle.eq_def]
  cases n <;> simp [h]

theorem recycle_canon {V : Type} [Inhabited V] :
    ∀ (h : Nat) (M : List V), 1 ≤ M.length → M.length ≤ 2 ^ h →
      leavesQ (MerkleTree.recycle (canonTree h M)) = M ∧
      (∀ n ∈ MerkleTree.recycle (canonTree h M), isPerfect n = true) ∧
      (MerkleTree.recycle (canonTree h M)).Pairwise (fun a b => b.height < a.height) ∧
      (∀ n ∈ MerkleTree.recycle (canonTree h M), n.height ≤ h) ∧
      (M.length < 2 ^ h → ∀ n ∈ MerkleTree.recycle (canonTree h M), n.height < h) := by
  intro h
  induction h with
  | zero =>
    intro M h1 h2
    simp only [Nat.pow_zero] at h2 ⊢
    match M, h1, h2 with
    | [v], _, _ =>
      rw [show canonTree 0 [v] = Node.leaf v from rfl,
        recycle_final (show (Node.leaf v).is_final = true from rfl)]
      refine ⟨rfl, ?_, ?_, ?_, ?_⟩
      · intro n hn
        rw [List.mem_singleton.mp hn]
        rfl
      · simp
      · intro n hn
        rw [List.mem_singleton.mp hn]
        simp [Node.height]
      · intro hlt
        omega
  | succ h ih =>
    intro M h1 h2
    have hp2 : (0 : Nat) < 2 ^ h := Nat.pos_pow_of_pos h (by norm_num)
    have hpow : (2 : Nat) ^ (h + 1) = 2 ^ h + 2 ^ h := by
      rw [pow_succ]; omega
    by_cases hfull : M.length = 2 ^ (h + 1)
    · -- the canonical tree is perfect: recycled whole
      have hperf := canon_perfect (h + 1) M hfull
      rw [recycle_final (isPerfect_is_final _ hperf)]
      refine ⟨?_, ?_, ?_, ?_, ?_⟩
      · rw [leavesQ_cons, leavesQ_nil, List.append_nil, canon_leaves (h + 1) M h1 h2]
      · intro n hn
        rw [List.mem_singleton.mp hn]
        exact hperf
      · simp
      · intro n hn
        rw [List.mem_singleton.mp hn, canon_height]
      · intro hlt
        omega
    · by_cases hsmall : M.length ≤ 2 ^ h
      · -- lone-left-child branch: never final, descend into the left child
        have hstep : MerkleTree.recycle (canonTree (h + 1) M) =
            MerkleTree.recycle (canonTree h M) := by
          rw [canonTree, if_pos hsmall]
          rw [show new_branch (some (canonTree h M)) none =
            Node.branch (some (canonTree h M)) none from rfl]
          simp [MerkleTree.recycle, Node.is_final]
        obtain ⟨e1, e2, e3, e4, e5⟩ := ih M h1 hsmall
        rw [hstep]
        refine ⟨e1, e2, e3, ?_, ?_⟩
        · intro n hn
          have := e4 n hn
          omega
        · intro _ n hn
          have := e4 n hn
          omega
      · -- two-child branch: a perfect left half and a smaller right part
        push_neg at hsmall
        have htlen : (M.take (2 ^ h)).length = 2 ^ h := by
          simp [List.length_take]
          omega
        have hdlen : (M.drop (2 ^ h)).length = M.length - 2 ^ h := by
          simp [List.length_drop]
        have hAperf : isPerfect (canonTree h (M.take (2 ^ h))) = true :=
          canon_perfect h _ htlen
        have hBnotfinal : (canonTree h (M.drop (2 ^ h))).is_final = false := by
          by_contra hc
          push_neg at hc
          have hc' : (canonTree h (M.drop (2 ^ h))).is_final = true := by
            revert hc
            cases (canonTree h (M.drop (2 ^ h))).is_final <;> simp
          have := canon_final_imp h (M.drop (2 ^ h)) (by omega) (by omega) hc'
          omega
        have hstep : MerkleTree.recycle (canonTree (h + 1) M) =
            canonTree h (M.take (2 ^ h)) :: MerkleTree.recycle (canonTree h (M.drop (2 ^ h))) := by
          rw [canonTree, if_neg hsmall.not_le]
          rw [show new_branch (some (canonTree h (M.take (2 ^ h))))
            (some (canonTree h (M.drop (2 ^ h)))) =
            Node.branch (some (canonTree h (M.take (2 ^ h))))
              (some (canonTree h (M.drop (2 ^ h)))) from rfl]
          have hnotfin : (Node.branch (some (canonTree h (M.take (2 ^ h))))
              (some (canonTree h (M.drop (2 ^ h))))).is_final = false := by
            simp [Node.is_final, hBnotfinal]
          simp only [MerkleTree.recycle, hnotfin, Bool.false_eq_true, if_false]
          rw [recycle_final (isPerfect_is_final _ hAperf)]
          rfl
        obtain ⟨e1, e2, e3, e4, e5⟩ := ih (M.drop (2 ^ h)) (by omega) (by omega)
        have hdrop_lt : (M.drop (2 ^ h)).length < 2 ^ h := by omega
        rw [hstep]
        refine ⟨?_, ?_, ?_, ?_, ?_⟩
        · rw [leavesQ_cons, e1, canon_leaves h _ (by omega) (by omega),
            List.take_append_drop]
        · intro n hn
          rcases List.mem_cons.mp hn with hn | hn
          · rw [hn]
            exact hAperf
          · exact e2 n hn
        · rw [List.pairwise_cons]
          exact ⟨fun n hn => by rw [canon_height]; exact e5 hdrop_lt n hn, e3⟩
        · intro n hn
          rcases List.mem_cons.mp hn with hn | hn
          · rw [hn, canon_height]
            omega
          · have := e4 n hn
            omega
        · intro _ n hn
          rcases List.mem_cons.mp hn with hn | hn
          · rw [hn, canon_height]
            omega
          · have := e5 hdrop_lt n hn
            omega

/-! ### The reachable-state invariant -/

theorem leavesQ_map_new_leaf {V : Type} (vs : List V) :
    leavesQ (vs.map new_leaf) = vs := by
  induction vs with
  | nil => rfl
  | cons v vs ih => rw [List.map_cons, leavesQ_cons, ih]; rfl

theorem new_leaf_perfect {V : Type} (v : V) : isPerfect (new_leaf v) = true := rfl

theorem new_leaf_height {V : Type} (v : V) : (new_leaf v).height = 0 := rfl

theorem treeInv_with_hasher {V : Type} [Inhabited V] :
    TreeInv (MerkleTree.with_hasher : MerkleTree V) [] := by
  refine ⟨?_, ?_, rfl, rfl⟩ <;> simp [MerkleTree.with_hasher]

theorem height_le_ceil_log2 {V : Type} {q : List (Node V)} {n : Node V}
    (hperf : ∀ m ∈ q, isPerfect m = true) (hn : n ∈ q) :
    n.height ≤ MerkleTree.ceil_log2 (MerkleTree.nodes_leaf_count q) := by
  have h1 : 2 ^ n.height = n.len := (isPerfect_len n (hperf n hn)).symm
  have h2 : n.len ≤ MerkleTree.nodes_leaf_count q := mem_len_le hn
  have h3 : MerkleTree.nodes_leaf_count q ≤
      2 ^ MerkleTree.ceil_log2 (MerkleTree.nodes_leaf_count q) :=
    le_two_pow_ceil_log2 _
  have : 2 ^ n.height ≤ 2 ^ MerkleTree.ceil_log2 (MerkleTree.nodes_leaf_count q) := by
    omega
  exact (Nat.pow_le_pow_iff_right (by norm_num)).mp this

theorem rebuildGo_inv {V : Type} [Inhabited V] {t1 : MerkleTree V} {L1 : List V}
    (hperf : ∀ n ∈ t1.nodes, isPerfect n = true)
    (hpair : t1.nodes.Pairwise (fun a b => b.height ≤ a.height))
    (hleaves : leavesQ t1.nodes = L1)
    (hne : t1.nodes ≠ []) :
    TreeInv (MerkleTree.rebuildGo t1) L1 := by
  have hL1ne : L1 ≠ [] := hleaves ▸ leavesQ_ne_nil hperf hne
  have hL1len : 1 ≤ L1.length := by
    cases L1 with
    | nil => exact absurd rfl hL1ne
    | cons a as => simp
  have hcount : MerkleTree.nodes_leaf_count t1.nodes = L1.length := by
    rw [nodes_leaf_count_eq, hleaves]
  have hle : ∀ n ∈ t1.nodes, n.height ≤ MerkleTree.ceil_log2 L1.length := by
    intro n hn
    have := height_le_ceil_log2 hperf hn
    rwa [hcount] at this
  obtain ⟨hb1, _, _⟩ :=
    buildTree_spec (MerkleTree.ceil_log2 L1.length) t1.nodes hperf hpair hle hne
  have hLle : L1.length ≤ 2 ^ MerkleTree.ceil_log2 L1.length := le_two_pow_ceil_log2 _
  have htake : (leavesQ t1.nodes).take (2 ^ MerkleTree.ceil_log2 L1.length) = L1 := by
    rw [hleaves]
    exact List.take_of_length_le hLle
  rw [htake] at hb1
  obtain ⟨r1, r2, r3, r4, _⟩ :=
    recycle_canon (MerkleTree.ceil_log2 L1.length) L1 hL1len hLle
  refine ⟨?_, ?_, ?_, ?_⟩
  · intro n hn
    apply r2 n
    simpa [MerkleTree.rebuildGo, hcount, hb1] using hn
  · have : (MerkleTree.rebuildGo t1).nodes =
        MerkleTree.recycle (canonTree (MerkleTree.ceil_log2 L1.length) L1) := by
      simp [MerkleTree.rebuildGo, hcount, hb1]
    rw [this]
    exact r3.imp Nat.le_of_lt
  · have : (MerkleTree.rebuildGo t1).nodes =
        MerkleTree.recycle (canonTree (MerkleTree.ceil_log2 L1.length) L1) := by
      simp [MerkleTree.rebuildGo, hcount, hb1]
    rw [this, r1]
  · have hroot : (MerkleTree.rebuildGo t1).root =
        some (canonTree (MerkleTree.ceil_log2 L1.length) L1) := by
      simp [MerkleTree.rebuildGo, hcount, hb1]
    rw [hroot, if_neg]
    simp [hL1ne]

theorem rebuild_preserves {V : Type} [Inhabited V] {t : MerkleTree V} {L : List V}
    (hinv : TreeInv t L) (vs : List V) :
    TreeInv (MerkleTree.rebuild_tree { t with nodes := t.nodes ++ vs.map new_leaf })
      (L ++ vs) := by
  obtain ⟨hperf, hpair, hleaves, hroot⟩ := hinv
  set t1 : MerkleTree V := { t with nodes := t.nodes ++ vs.map new_leaf } with ht1
  have ht1nodes : t1.nodes = t.nodes ++ vs.map new_leaf := rfl
  have ht1root : t1.root = t.root := rfl
  have ht1leaves : leavesQ t1.nodes = L ++ vs := by
    rw [ht1nodes, leavesQ_append, hleaves, leavesQ_map_new_leaf]
  have ht1perf : ∀ n ∈ t1.nodes, isPerfect n = true := by
    intro n hn
    rw [ht1nodes] at hn
    rcases List.mem_append.mp hn with hn | hn
    · exact hperf n hn
    · obtain ⟨v, _, hv⟩ := List.mem_map.mp hn
      rw [← hv]
      exact new_leaf_perfect v
  have ht1pair : t1.nodes.Pairwise (fun a b => b.height ≤ a.height) := by
    rw [ht1nodes, List.pairwise_append]
    refine ⟨hpair, ?_, ?_⟩
    · rw [List.pairwise_map]
      exact List.pairwise_of_forall (fun _ _ => by simp [new_leaf_height])
    · intro a _ b hb
      obtain ⟨v, _, hv⟩ := List.mem_map.mp hb
      rw [← hv, new_leaf_height]
      exact Nat.zero_le _
  rw [MerkleTree.rebuild_tree]
  by_cases hempty : t1.nodes.isEmpty
  · -- both the old queue and the appended batch are empty
    rw [if_pos hempty]
    have h0 : t1.nodes = [] := List.isEmpty_iff.mp hempty
    have hLvs : L ++ vs = [] := by rw [← ht1leaves, h0, leavesQ_nil]
    refine ⟨?_, ?_, ?_, ?_⟩
    · intro n hn
      exact absurd (h0 ▸ hn) (List.not_mem_nil n)
    · rw [show ({ t1 with root := none } : MerkleTree V).nodes = t1.nodes from rfl, h0]
      simp
    · rw [show ({ t1 with root := none } : MerkleTree V).nodes = t1.nodes from rfl, h0,
        leavesQ_nil, hLvs]
    · rw [hLvs]
      rfl
  · rw [if_neg hempty]
    have hne : t1.nodes ≠ [] := by
      intro hc
      rw [hc] at hempty
      exact hempty rfl
    cases hr : t.root with
    | some node =>
      -- an existing root: L is non-empty and node is the canonical tree over L
      have hLne : ¬ L.isEmpty := by
        intro hc
        rw [hc] at hroot
        simp only [if_pos] at hroot
        rw [hr] at hroot
        exact Option.noConfusion (hroot.symm.trans rfl)
      have hLlist : L ≠ [] := fun hc => hLne (by rw [hc]; rfl)
      have hL1 : 1 ≤ L.length := by
        cases L with
        | nil => exact absurd rfl hLlist
        | cons a as => simp
      have hnode : node = canonTree (MerkleTree.ceil_log2 L.length) L := by
        rw [hr] at hroot
        rw [if_neg hLne] at hroot
        exact Option.some.inj hroot
      have hnodelen : node.len = L.length := by
        rw [hnode]
        exact canon_len _ _ hL1 (le_two_pow_ceil_log2 _)
      have hcount : MerkleTree.nodes_leaf_count t1.nodes = L.length + vs.length := by
        rw [nodes_leaf_count_eq, ht1leaves, List.length_append]
      show TreeInv (if node.len ≥ MerkleTree.nodes_leaf_count t1.nodes then t1
        else MerkleTree.rebuildGo t1) (L ++ vs)
      by_cases hvs : vs = []
      · -- empty batch: the guard short-circuits and nothing changes
        have hguard : node.len ≥ MerkleTree.nodes_leaf_count t1.nodes := by
          rw [hnodelen, hcount, hvs]
          simp
        rw [if_pos hguard]
        subst hvs
        refine ⟨ht1perf, ht1pair, by rw [ht1leaves], ?_⟩
        rw [ht1root, hr, List.append_nil, if_neg hLne, hnode]
      · -- net growth: rebuild
        have hguard : ¬ node.len ≥ MerkleTree.nodes_leaf_count t1.nodes := by
          rw [hnodelen, hcount]
          have : vs.length ≠ 0 := fun hc => hvs (List.length_eq_zero.mp hc)
          omega
        rw [if_neg hguard]
        exact rebuildGo_inv ht1perf ht1pair ht1leaves hne
    | none =>
      -- no root yet: L is empty and the queue is exactly the new batch
      have hLnil : L = [] := by
        by_contra hc
        have : ¬ L.isEmpty := fun hc2 => hc (List.isEmpty_iff.mp hc2)
        rw [if_neg this] at hroot
        rw [hr] at hroot
        exact Option.noConfusion hroot
      show TreeInv (MerkleTree.rebuildGo t1) (L ++ vs)
      exact rebuildGo_inv ht1perf ht1pair ht1leaves hne

theorem runOps_inv_aux {V : Type} [Inhabited V] :
    ∀ (ops : List (Op V)) (t : MerkleTree V) (L : List V), TreeInv t L →
      TreeInv (ops.foldl applyOp t) (L ++ opValues ops) := by
  intro ops
  induction ops with
  | nil =>
    intro t L h
    simpa [opValues] using h
  | cons op ops ih =>
    intro t L h
    rw [List.foldl_cons]
    cases op with
    | ins v =>
      have h1 : TreeInv (applyOp t (Op.ins v)) (L ++ [v]) := rebuild_preserves h [v]
      have h2 := ih _ _ h1
      rw [List.append_assoc] at h2
      simpa [opValues] using h2
    | insItems vs =>
      have h1 : TreeInv (applyOp t (Op.insItems vs)) (L ++ vs) := rebuild_preserves h vs
      have h2 := ih _ _ h1
      rw [List.append_assoc] at h2
      simpa [opValues] using h2

/-- Every tree reachable through the public API satisfies the invariant:
its pending queue decomposes the insertion sequence and its root is the
canonical tree over that sequence. -/
theorem runOps_inv {V : Type} [Inhabited V] (ops : List (Op V)) :
    TreeInv (runOps ops) (opValues ops) := by
  have h := runOps_inv_aux ops MerkleTree.with_hasher [] treeInv_with_hasher
  simpa [runOps] using h

/-! ### Lemmas for the proof search -/

theorem allDigests_branch {V : Type} (l r : Option (Node V)) :
    (Node.branch l r).allDigests =
      (Node.branch l r).hash_value ::
        ((match l with
          | some c => c.allDigests
          | none => []) ++
         (match r with
          | some c => c.allDigests
          | none => [])) := by
  rw [Node.allDigests.eq_def]

theorem mem_hash_value_allDigests {V : Type} (n : Node V) :
    n.hash_value ∈ n.allDigests := by
  cases n <;> rw [Node.allDigests.eq_def] <;> simp

theorem data_proof_empty {V : Type} [DecidableEq V] (target : Digest V) (h : Nat)
    (root : Node V) (habs : target ∉ root.allDigests) :
    MerkleTree.data_proof target h root = [] := by
  revert habs
  induction root using Node.leaves.induct with
  | case1 v => intro _; rfl
  | case2 l r ihl ihr =>
    intro habs
    rw [allDigests_branch] at habs
    simp only [List.mem_cons, List.mem_append] at habs
    push_neg at habs
    obtain ⟨habs0, habsl, habsr⟩ := habs
    rw [MerkleTree.data_proof.eq_def]
    simp only []
    split
    · have h1 : ¬ l.hash_value = target :=
        fun hc => habsl (hc ▸ mem_hash_value_allDigests l)
      have h2 : ¬ r.hash_value = target :=
        fun hc => habsr (hc ▸ mem_hash_value_allDigests r)
      simp [h1, h2]
    · simp [ihl habsl, ihr habsr]
  | case3 l ihl =>
    intro habs
    rw [allDigests_branch] at habs
    simp only [List.mem_cons, List.mem_append] at habs
    push_neg at habs
    obtain ⟨habs0, habsl, _⟩ := habs
    rw [MerkleTree.data_proof.eq_def]
    simp only []
    split
    · have h1 : ¬ l.hash_value = target :=
        fun hc => habsl (hc ▸ mem_hash_value_allDigests l)
      simp [h1]
    · simp [ihl habsl]
  | case4 r ihr =>
    intro habs
    rw [allDigests_branch] at habs
    simp only [List.mem_cons, List.mem_append] at habs
    push_neg at habs
    obtain ⟨habs0, _, habsr⟩ := habs
    rw [MerkleTree.data_proof.eq_def]
    simp only []
    split
    · have h1 : ¬ r.hash_value = target :=
        fun hc => habsr (hc ▸ mem_hash_value_allDigests r)
      simp [h1]
    · simp [ihr habsr]
  | case5 =>
    intro _
    rw [MerkleTree.data_proof.eq_def]
    simp

theorem opValues_append {V : Type} (xs ys : List (Op V)) :
    opValues (xs ++ ys) = opValues xs ++ opValues ys := by
  induction xs with
  | nil => rfl
  | cons op xs ih => cases op <;> simp [opValues, ih]

/-! ## The claims -/

/-- C1: the claim states that a Branch digest is the hash of the left
child's digest followed by the right child's digest (the lone child's
digest fed twice when only one is present).  The code instead feeds the
children's `Hash` impls recursively, i.e. the raw leaf values: for the
branch over leaves `0` and `1` the digest is `H(serialize(0) ‖
serialize(1))`, which differs (for the free hasher, a legitimate
capability) from `H(digest(leaf 0) ‖ digest(leaf 1))`.  Only the Leaf part
of the claim holds. -/
theorem claim_C1_branch_digest_divergence :
    Node.hash_value (new_branch (some (new_leaf (0 : Nat))) (some (new_leaf 1)))
      = Digest.hv [0, 1] ∧
    Digest.hv [(0 : Nat), 1] ≠ Digest.hp (Digest.hv [0]) (Digest.hv [1]) ∧
    Node.hash_value (new_branch (some (new_leaf (0 : Nat))) none) = Digest.hv [0, 0] ∧
    Digest.hv [(0 : Nat), 0] ≠ Digest.hp (Digest.hv [0]) (Digest.hv [0]) ∧
    Node.hash_value (new_leaf (0 : Nat)) = Digest.hv [0] :=
  ⟨rfl, by decide, rfl, by decide, rfl⟩

/-- C2: folding `value_proof` per spec §4.4 (the fold of lib.rs's own
`test_value_proof`) does not reproduce `root_hash()`: in the two-leaf tree
`{0, 1}` the proof for `0` is `[Right(digest(leaf 1))]`, the fold yields
`H(digest(leaf 0) ‖ digest(leaf 1))`, but the root digest is
`H(serialize(0) ‖ serialize(1))` - the code's own test asserts these
equal, and they are not. -/
theorem claim_C2_fold_divergence :
    (runOps [Op.ins (0 : Nat), Op.ins 1]).value_proof 0
      = [Proof.right (Digest.hv [1])] ∧
    verify_fold ((runOps [Op.ins (0 : Nat), Op.ins 1]).value_proof 0) (Digest.hv [0])
      = Digest.hp (Digest.hv [0]) (Digest.hv [1]) ∧
    (runOps [Op.ins (0 : Nat), Op.ins 1]).root_hash = some (Digest.hv [0, 1]) ∧
    some (verify_fold ((runOps [Op.ins (0 : Nat), Op.ins 1]).value_proof 0)
        (Digest.hv [0]))
      ≠ (runOps [Op.ins (0 : Nat), Op.ins 1]).root_hash := by
  refine ⟨by decide, by decide, by decide, by decide⟩

/-- C3: the claim states `value_proof` has length `height()`; but
`data_proof` never continues the search upward (the accumulated height is
passed unchanged, so only the target's direct parent can emit a step): in
the four-leaf tree `{0, 1, 2, 3}` of height 2, the proof for the present
value `3` has length 1, and the code's own `test_value_proof`
(src/src/lib.rs line 109) asserts length = height. -/
theorem claim_C3_length_divergence :
    ((runOps [Op.insItems [(0 : Nat), 1, 2, 3]]).value_proof 3).length = 1 ∧
    (runOps [Op.insItems [(0 : Nat), 1, 2, 3]]).height = 2 ∧
    (3 : Nat) ∈ opValues [Op.insItems [(0 : Nat), 1, 2, 3]] ∧
    (runOps [Op.insItems [(0 : Nat), 1, 2, 3]]).leaf_count = some 4 := by
  refine ⟨by decide, by decide, by decide, by decide⟩

/-- C4: two trees fed the same non-empty value sequence in the same order
have equal `root_hash()`, regardless of how the sequence was batched into
`insert` / `insert_items` calls: every reachable root is the canonical
tree over the insertion sequence, a function of that sequence alone. -/
theorem claim_C4_batching_invariance {V : Type} [Inhabited V]
    (ops₁ ops₂ : List (Op V)) (hsame : opValues ops₁ = opValues ops₂)
    (_hne : opValues ops₁ ≠ []) :
    (runOps ops₁).root_hash = (runOps ops₂).root_hash := by
  obtain ⟨_, _, _, hroot₁⟩ := runOps_inv ops₁
  obtain ⟨_, _, _, hroot₂⟩ := runOps_inv ops₂
  simp only [MerkleTree.root_hash]
  rw [hroot₁, hroot₂, hsame]

/-- Witness for C4: one batch of three versus three single inserts. -/
theorem claim_C4_batching_invariance_witness :
    opValues [Op.insItems [(0 : Nat), 1, 2]]
      = opValues [Op.ins (0 : Nat), Op.ins 1, Op.ins 2] ∧
    opValues [Op.insItems [(0 : Nat), 1, 2]] ≠ [] ∧
    (runOps [Op.insItems [(0 : Nat), 1, 2]]).root_hash
      = (runOps [Op.ins (0 : Nat), Op.ins 1, Op.ins 2]).root_hash :=
  ⟨by decide, by decide,
    claim_C4_batching_invariance _ _ (by decide) (by decide)⟩

/-- C5: every API-reachable tree with `leaf_count() = n ≥ 1` has
`height() = ⌈log₂ n⌉`; in particular height 0 when `n = 1`. -/
theorem claim_C5_height_eq_ceil_log {V : Type} [Inhabited V]
    (ops : List (Op V)) (n : Nat)
    (hcount : (runOps ops).leaf_count = some n) (_hn : 1 ≤ n) :
    (runOps ops).height = Nat.clog 2 n ∧ (n = 1 → (runOps ops).height = 0) := by
  obtain ⟨_, _, _, hroot⟩ := runOps_inv ops
  by_cases hL : (opValues ops).isEmpty
  · rw [MerkleTree.leaf_count, hroot, if_pos hL] at hcount
    simp at hcount
  · rw [if_neg hL] at hroot
    have hne : opValues ops ≠ [] := fun hc => hL (by rw [hc]; rfl)
    have hL1 : 1 ≤ (opValues ops).length := List.length_pos.mpr hne
    have hcanon : (canonTree (MerkleTree.ceil_log2 (opValues ops).length)
        (opValues ops)).len = (opValues ops).length :=
      canon_len _ _ hL1 (le_two_pow_ceil_log2 _)
    rw [MerkleTree.leaf_count, hroot] at hcount
    simp only [Option.map_some', Option.some.injEq] at hcount
    have hn' : n = (opValues ops).length := by rw [← hcount, hcanon]
    have hmain : (runOps ops).height = Nat.clog 2 n := by
      simp only [MerkleTree.height, hroot]
      rw [canon_height, ceil_log2_eq_clog, hn']
    exact ⟨hmain, fun h1 => by rw [hmain, h1, Nat.clog_one_right]⟩

/-- Witness for C5: three leaves give height 2 = ⌈log₂ 3⌉. -/
theorem claim_C5_height_eq_ceil_log_witness :
    (runOps [Op.insItems [(0 : Nat), 1, 2]]).leaf_count = some 3 ∧ 1 ≤ 3 ∧
    (runOps [Op.insItems [(0 : Nat), 1, 2]]).height = Nat.clog 2 3 :=
  ⟨by decide, by decide,
    (claim_C5_height_eq_ceil_log [Op.insItems [(0 : Nat), 1, 2]] 3
      (by decide) (by decide)).1⟩

/-- C6: after every completed `insert`/`insert_items` call the root's leaf
count equals the total number of values ever inserted (absent only when
nothing was ever inserted), and the count never shrinks as further calls
are applied. -/
theorem claim_C6_leaf_count {V : Type} [Inhabited V] (ops : List (Op V)) :
    (runOps ops).leaf_count =
      (if (opValues ops).isEmpty then none else some (opValues ops).length) ∧
    ∀ more : List (Op V),
      ((runOps ops).leaf_count).getD 0 ≤ ((runOps (ops ++ more)).leaf_count).getD 0 := by
  have hmain : ∀ ops' : List (Op V), (runOps ops').leaf_count =
      (if (opValues ops').isEmpty then none else some (opValues ops').length) := by
    intro ops'
    obtain ⟨_, _, _, hroot⟩ := runOps_inv ops'
    by_cases hL : (opValues ops').isEmpty
    · rw [MerkleTree.leaf_count, hroot, if_pos hL, if_pos hL]
      rfl
    · rw [MerkleTree.leaf_count, hroot, if_neg hL, if_neg hL]
      have hne : opValues ops' ≠ [] := fun hc => hL (by rw [hc]; rfl)
      simp [canon_len _ _ (List.length_pos.mpr hne) (le_two_pow_ceil_log2 _)]
  refine ⟨hmain ops, ?_⟩
  intro more
  rw [hmain ops, hmain (ops ++ more), opValues_append]
  by_cases h1 : (opValues ops).isEmpty
  · simp [h1]
  · have hne : opValues ops ≠ [] := fun hc => h1 (by rw [hc]; rfl)
    have h2 : ¬ (opValues ops ++ opValues more).isEmpty := by
      simp [hne]
    rw [if_neg h1, if_neg h2]
    simp

/-- Counterexample for C7: `is_final` does not check that the two children
have equal heights, so the lopsided branch over `leaf 0` and the pair
`(1, 2)` - built directly with the public `Node::new_branch` - is reported
final although it is not a perfect binary tree. -/
theorem claim_C7_counterexample :
    Node.is_final (new_branch (some (new_leaf (0 : Nat)))
      (some (new_branch (some (new_leaf 1)) (some (new_leaf 2))))) = true ∧
    isPerfect (new_branch (some (new_leaf (0 : Nat)))
      (some (new_branch (some (new_leaf 1)) (some (new_leaf 2))))) = false := by
  refine ⟨by decide, by decide⟩

/-- C7 (amended): `is_final` is true for every Leaf and, for a Branch,
exactly when both children are present and both are saturated; the
same-height condition of the claim is not checked, so saturation is
weaker than being a perfect binary tree, though every perfect tree is
saturated. -/
theorem claim_C7_amended {V : Type} :
    (∀ n : Node V, n.is_final = true ↔ Saturated n) ∧
    (∀ n : Node V, isPerfect n = true → n.is_final = true) := by
  have fwd : ∀ n : Node V, n.is_final = true → Saturated n := by
    intro n
    induction n using Node.leaves.induct with
    | case1 v => intro _; exact Saturated.leaf v
    | case2 l r ihl ihr =>
      intro h
      simp only [Node.is_final, Bool.and_eq_true] at h
      exact Saturated.branch (ihl h.1) (ihr h.2)
    | case3 l ihl => intro h; simp [Node.is_final] at h
    | case4 r ihr => intro h; simp [Node.is_final] at h
    | case5 => intro h; simp [Node.is_final] at h
  have bwd : ∀ n : Node V, Saturated n → n.is_final = true := by
    intro n hs
    induction hs with
    | leaf v => rfl
    | branch hl hr ihl ihr => simp [Node.is_final, ihl, ihr]
  exact ⟨fun n => ⟨fwd n, bwd n⟩, fun n => isPerfect_is_final n⟩

/-- C8: a search target digest that occurs nowhere among the tree's node
digests yields an empty proof, both for `value_proof` (target
`H(serialize(value))`) and for `tree_proof` (target the other tree's root
digest, when it has one). -/
theorem claim_C8_not_found {V : Type} [DecidableEq V]
    (t other : MerkleTree V) (v : V)
    (h1 : Digest.hv [v] ∉ treeDigests t)
    (h2 : ∀ d ∈ other.root_hash.toList, d ∉ treeDigests t) :
    t.value_proof v = [] ∧ t.tree_proof other = [] := by
  constructor
  · cases hr : t.root with
    | none => simp [MerkleTree.value_proof, hr]
    | some root =>
      simp only [MerkleTree.value_proof, hr]
      refine data_proof_empty _ _ _ ?_
      simpa [treeDigests, hr] using h1
  · cases hd : other.root_hash with
    | none => simp [MerkleTree.tree_proof, hd]
    | some d =>
      cases hr : t.root with
      | none => simp [MerkleTree.tree_proof, hd, hr]
      | some root =>
        simp only [MerkleTree.tree_proof, hd, hr]
        refine data_proof_empty _ _ _ ?_
        have := h2 d (by simp [hd])
        simpa [treeDigests, hr] using this

/-- Witness for C8: the value `5` and a tree holding only `5` are both
absent from the two-leaf tree `{0, 1}`. -/
theorem claim_C8_not_found_witness :
    Digest.hv [(5 : Nat)] ∉ treeDigests (runOps [Op.insItems [(0 : Nat), 1]]) ∧
    (runOps [Op.insItems [(0 : Nat), 1]]).value_proof 5 = [] ∧
    (runOps [Op.insItems [(0 : Nat), 1]]).tree_proof (runOps [Op.ins (5 : Nat)]) = [] :=
  ⟨by decide,
    (claim_C8_not_found (runOps [Op.insItems [(0 : Nat), 1]])
      (runOps [Op.ins (5 : Nat)]) 5 (by decide) (by decide)).1,
    (claim_C8_not_found (runOps [Op.insItems [(0 : Nat), 1]])
      (runOps [Op.ins (5 : Nat)]) 5 (by decide) (by decide)).2⟩

/-- C9: `Leaf::new` and `Branch::new` create the struct with `hash: None`
and store the freshly computed digest before returning, so `hash_value`
returns `Some` on every constructed node and the unset-hash panic arm is
unreachable through the public API; the digests stored are exactly the
ones the cache-free model computes. -/
theorem claim_C9_cache_always_set {V : Type} :
    (∀ v : V, (LeafRaw.new v).hash_value = some (Digest.hv [v])) ∧
    (∀ l r : Option (Node V),
      (BranchRaw.new l r).hash_value = some (Digest.hv (branchFeed l r))) ∧
    (∀ l r : Option (Node V),
      (new_branch l r).hash_value = Digest.hv (branchFeed l r)) ∧
    (∀ v : V, (new_leaf v).hash_value = Digest.hv [v]) := by
  refine ⟨fun v => rfl, fun l r => rfl, fun l r => ?_, fun v => rfl⟩
  cases l <;> cases r <;> rfl

/-- C10: when the search target matches the lone left child of a Branch
with no right child, the emitted step is `Right` carrying that same
child's own digest (duplicated as its own sibling); symmetrically a lone
right child yields `Left` with its own digest. -/
theorem claim_C10_lone_child_step {V : Type} [DecidableEq V] (c : Node V) :
    MerkleTree.data_proof c.hash_value c.height (new_branch (some c) none)
      = [Proof.right c.hash_value] ∧
    MerkleTree.data_proof c.hash_value c.height (new_branch none (some c))
      = [Proof.left c.hash_value] := by
  constructor <;>
    (rw [MerkleTree.data_proof.eq_def]; simp [Node.height, new_branch])
